import Mathlib

/-!
Shallow embedding of the `traefik-responsebodyrewrite` middleware
(`src/main.go`), together with a model of the `HTTPCodeRanges` status-range
structure whose implementation file is absent from the sources (only its
tests and callers are present); that part is modelled from the spec.

Go's `regexp` package is an external collaborator, so the middleware is
parametrised over an abstract regex engine (a pattern compiler and a
replace-all function).  A concrete engine handling only literal patterns,
matching Go's behaviour on metacharacter-free patterns, instantiates the
parametric theorems.
-/

namespace ResponseBodyRewrite

/-! ## HTTP headers (model of Go `http.Header`)

A header collection is an association list from a field name to a list of
values.  Go's `http.Header` is `map[string][]string`; map assignment
replaces the value slice, `Del` removes the key, `Get` reads the first
value of the key (empty string when absent). -/

/-- Model of Go `http.Header`: association list from field name to values. -/
abbrev HttpHeader := List (String × List String)

/-- Model of Go map deletion `delete(h, k)` / `http.Header.Del`. -/
def HttpHeader.del (h : HttpHeader) (k : String) : HttpHeader :=
  h.filter (fun p => p.1 ≠ k)

/-- Model of Go map assignment `h[k] = vs`: the previous binding of `k`
is replaced, not appended to. -/
def HttpHeader.setVals (h : HttpHeader) (k : String) (vs : List String) : HttpHeader :=
  h.del k ++ [(k, vs)]

/-- Model of `http.Header.Set`: sets the single value `v` for key `k`. -/
def HttpHeader.set (h : HttpHeader) (k v : String) : HttpHeader :=
  h.setVals k [v]

/-- The value list bound to `k` (empty when `k` is absent). -/
def HttpHeader.find (h : HttpHeader) (k : String) : List String :=
  match h.find? (fun p => p.1 = k) with
  | some p => p.2
  | none => []

/-- Model of `http.Header.Get`: the first value for `k`, `""` when absent. -/
def HttpHeader.get (h : HttpHeader) (k : String) : String :=
  match h.find k with
  | v :: _ => v
  | [] => ""

/-- Whether the collection has a binding for `k` (what the repository's
test observes via `recorder.Result().Header["Content-Length"]`). -/
def HttpHeader.contains (h : HttpHeader) (k : String) : Bool :=
  h.any (fun p => p.1 = k)

/-- Model of the Go copy loop `for k, v := range src { dst[k] = v }`:
every binding of `src` is assigned (replacing, not appending) onto `dst`. -/
def HttpHeader.copyFrom (dst src : HttpHeader) : HttpHeader :=
  src.foldl (fun d p => d.setVals p.1 p.2) dst

/-! ## HTTPCodeRanges

The repository's `httpcoderanges.go` is not among the provided sources;
only its tests (`TestHTTPCodeRanges_Contains`, `TestNewHTTPCodeRanges`)
and its callers in `main.go` are.  The definitions below are modelled
from the spec. -/

/-- Type `HTTPCodeRanges`: an ordered list of inclusive integer intervals. -/
abbrev HTTPCodeRanges := List (Int × Int)

/-- Modelled from the spec: `Contains(code)` is "true iff code lies within
any stored interval's inclusive bounds; scans in insertion order; returns
on first hit".  (The implementation file for `HTTPCodeRanges` is missing
from the sources; only its tests are present.) -/
def HTTPCodeRanges.Contains (r : HTTPCodeRanges) (code : Int) : Bool :=
  r.any (fun p => p.1 ≤ code && code ≤ p.2)

/-- Split a character list on a separator character, in the sense of
`strings.Split`: `"a,,b"` gives `["a", "", "b"]`, `""` gives `[""]`. -/
def splitOnChar (sep : Char) : List Char → List (List Char)
  | [] => [[]]
  | c :: rest =>
    match splitOnChar sep rest with
    | [] => [[c]]
    | g :: gs => if c = sep then [] :: g :: gs else (c :: g) :: gs

/-- Strip leading and trailing whitespace. -/
def trimChars (s : List Char) : List Char :=
  ((s.dropWhile Char.isWhitespace).reverse.dropWhile Char.isWhitespace).reverse

/-- Modelled from the spec: a range bound must be "a valid integer"; the
textual form that can reach a bound is a decimal digit string, parsed here
exactly when non-empty and all digits. -/
def parseBound (s : List Char) : Option Int :=
  if s ≠ [] ∧ s.all Char.isDigit then
    some ((s.foldl (fun n c => 10 * n + (c.toNat - 48)) 0 : Nat) : Int)
  else none

/-- Modelled from the spec: "each resulting block is trimmed and parsed as
either a single integer or a `low-high` pair separated by `-`"; an empty
block or a non-integer bound is a parse error. -/
def parseBlock (block : List Char) : Option (Int × Int) :=
  match splitOnChar '-' (trimChars block) with
  | [single] => (parseBound single).map (fun n => (n, n))
  | [lo, hi] =>
    match parseBound lo, parseBound hi with
    | some l, some h => some (l, h)
    | _, _ => none
  | _ => none

/-- Modelled from the spec: `NewHTTPCodeRanges` splits each input string on
`,`, parses each block, and concatenates all resulting intervals into one
ordered range list, failing on the first malformed block.  (The
implementation file is missing from the sources; only its tests are
present.) -/
def NewHTTPCodeRanges (strBlocks : List String) : Except String HTTPCodeRanges :=
  strBlocks.foldlM
    (fun acc s =>
      (splitOnChar ',' s.data).foldlM
        (fun acc block =>
          match parseBlock block with
          | some r => Except.ok (acc ++ [r])
          | none => Except.error ("invalid status range: " ++ String.mk block))
        acc)
    ([] : HTTPCodeRanges)

/-! ## Configuration and construction (`New` in `src/main.go`)

The regex engine is Go's `regexp` package, an external collaborator; the
embedding is parametric in it: `γ` is the type of compiled patterns,
`compile` the fallible compiler, `replaceAll` the substitution function
(compiled pattern → replacement → body → result). -/

/-- Structure `Rewrite` of `src/main.go`: one rewrite body configuration. -/
structure Rewrite where
  Regex : String
  Replacement : String
deriving DecidableEq

/-- Structure `Response` of `src/main.go`: one response configuration. -/
structure Response where
  Rewrites : List Rewrite
  Status : String
deriving DecidableEq

/-- Structure `Config` of `src/main.go`: the plugin configuration. -/
structure Config where
  Responses : List Response
deriving DecidableEq

/-- Function `CreateConfig` of `src/main.go`. -/
def CreateConfig : Config := { Responses := [] }

/-- Structure `parsedRewrite` of `src/main.go`, over compiled-pattern type `γ`. -/
structure parsedRewrite (γ : Type) where
  regex : γ
  replacement : String
deriving DecidableEq

/-- Structure `parsedResponse` of `src/main.go`. -/
structure parsedResponse (γ : Type) where
  rewrites : List (parsedRewrite γ)
  status : HTTPCodeRanges
deriving DecidableEq

/-- The middleware instance built by `New` (its `next` handler and logger
are request-time collaborators, not part of the parsed state). -/
structure responsebodyrewrite (γ : Type) where
  name : String
  responses : List (parsedResponse γ)
  lastModified : Bool
deriving DecidableEq

/-- The inner loop of `New`: compile each configured rewrite in order,
failing on the first pattern the engine rejects. -/
def parseRewrites {γ : Type} (compile : String → Except String γ) :
    List Rewrite → Except String (List (parsedRewrite γ))
  | [] => Except.ok []
  | rc :: rest =>
    match compile rc.Regex with
    | Except.error e =>
      Except.error ("error compiling regex " ++ rc.Regex ++ ": " ++ e)
    | Except.ok regex =>
      (parseRewrites compile rest).map
        (fun rs => { regex := regex, replacement := rc.Replacement } :: rs)

/-- The outer loop of `New`: for each configured `Response`, parse its
status ranges then its rewrites, failing on the first error. -/
def parseResponses {γ : Type} (compile : String → Except String γ) :
    List Response → Except String (List (parsedResponse γ))
  | [] => Except.ok []
  | response :: rest => do
    let httpCodeRanges ← NewHTTPCodeRanges [response.Status]
    let rewrites ← parseRewrites compile response.Rewrites
    let tail ← parseResponses compile rest
    pure ({ rewrites := rewrites, status := httpCodeRanges } :: tail)

/-- Function `New` of `src/main.go`: builds the middleware, or fails with the first
range-parse or pattern-compile error.  Go returns the pair `(nil, err)` on
failure; `Except` models the all-or-nothing pair. -/
def New {γ : Type} (compile : String → Except String γ) (config : Config)
    (name : String) : Except String (responsebodyrewrite γ) :=
  (parseResponses compile config.Responses).map
    (fun parsed => { name := name, responses := parsed, lastModified := true })

/-! ## The intercepting response writer (`responseWriter` in `src/main.go`)

The real sink (`http.ResponseWriter`, e.g. the `httptest` recorder) is
folded into the state: `sinkHeaders` its header map, `sinkStatusWrites`
the sequence of status codes written to it, `sinkBody` the bytes written
directly to it. -/

/-- The wrapper state plus the real sink it is bound to. -/
structure responseWriter where
  buffer : String
  headerMap : HttpHeader
  headersSent : Bool
  code : Int
  sinkHeaders : HttpHeader
  sinkStatusWrites : List Int
  sinkBody : String
deriving DecidableEq

/-- Method `responseWriter.Header` of `src/main.go`: the private map before the
status is committed, the real sink's map afterwards. -/
def responseWriter.Header (r : responseWriter) : HttpHeader :=
  if r.headersSent then r.sinkHeaders else r.headerMap

/-- A downstream `h.Set(k, v)` through the map returned by `Header()`:
mutates the private map before commitment, the real sink's map after. -/
def responseWriter.setHeader (r : responseWriter) (k v : String) : responseWriter :=
  if r.headersSent then
    { r with sinkHeaders := r.sinkHeaders.set k v }
  else
    { r with headerMap := r.headerMap.set k v }

/-- Method `responseWriter.WriteHeader` of `src/main.go`. -/
def responseWriter.WriteHeader (r : responseWriter) (statusCode : Int) : responseWriter :=
  if r.headersSent then r
  else if 100 ≤ statusCode ∧ statusCode ≤ 199 then
    { r with
      sinkHeaders := r.sinkHeaders.copyFrom r.Header
      sinkStatusWrites := r.sinkStatusWrites ++ [statusCode] }
  else
    { r with
      code := statusCode
      sinkHeaders := (r.sinkHeaders.copyFrom r.Header).del "Content-Length"
      sinkStatusWrites := r.sinkStatusWrites ++ [statusCode]
      headersSent := true }

/-- Method `responseWriter.Write` of `src/main.go`: commit an implicit 200 if
needed, then append the bytes to the internal buffer. -/
def responseWriter.Write (r : responseWriter) (p : String) : responseWriter :=
  let r := if r.headersSent then r else r.WriteHeader 200
  { r with buffer := r.buffer ++ p }

/-! ## The downstream handler and `ServeHTTP` -/

/-- One call the downstream handler makes through the response-sink
interface. -/
inductive HandlerOp where
  | setHeader (k v : String)
  | writeHeader (code : Int)
  | write (p : String)
deriving DecidableEq

/-- Run one downstream call against the wrapper. -/
def stepOp (r : responseWriter) : HandlerOp → responseWriter
  | HandlerOp.setHeader k v => r.setHeader k v
  | HandlerOp.writeHeader code => r.WriteHeader code
  | HandlerOp.write p => r.Write p

/-- Run the downstream handler (a straight-line sequence of sink calls)
against the wrapper. -/
def runHandler (ops : List HandlerOp) (r : responseWriter) : responseWriter :=
  ops.foldl stepOp r

/-- The fresh wrapper `ServeHTTP` builds per request: `code` starts at
`http.StatusOK`, the header map empty, bound to a fresh recorder sink. -/
def initialWriter : responseWriter :=
  { buffer := ""
    headerMap := []
    headersSent := false
    code := 200
    sinkHeaders := []
    sinkStatusWrites := []
    sinkBody := "" }

/-- The rewrite loop body of `ServeHTTP`: apply the matched rule's rewrites
sequentially, each seeing the previous one's output. -/
def applyRewrites {γ : Type} (replaceAll : γ → String → String → String)
    (rewrites : List (parsedRewrite γ)) (body : String) : String :=
  rewrites.foldl (fun b rw => replaceAll rw.regex rw.replacement b) body

/-- The match loop of `ServeHTTP`: scan the parsed responses in configured
order; on the first whose range contains the code, apply its rewrites and
stop (`break`); skip the rest (`continue`). -/
def matchAndRewrite {γ : Type} (replaceAll : γ → String → String → String) :
    List (parsedResponse γ) → Int → String → String
  | [], _, body => body
  | response :: rest, code, body =>
    if response.status.Contains code then
      applyRewrites replaceAll response.rewrites body
    else
      matchAndRewrite replaceAll rest code body

/-- Function `ServeHTTP` of `src/main.go`: run the downstream handler against a
fresh wrapper, then forward the buffered body to the real sink — verbatim
when the response carries a non-identity `Content-Encoding`, otherwise
transformed by the first matching response rule.  Returns the final state
(wrapper plus real sink). -/
def ServeHTTP {γ : Type} (replaceAll : γ → String → String → String)
    (r : responsebodyrewrite γ) (handler : List HandlerOp) : responseWriter :=
  let w := runHandler handler initialWriter
  let bodyBytes := w.buffer
  let contentEncoding := w.Header.get "Content-Encoding"
  if contentEncoding ≠ "" ∧ contentEncoding ≠ "identity" then
    { w with sinkBody := w.sinkBody ++ bodyBytes }
  else
    { w with
      sinkBody := w.sinkBody ++ matchAndRewrite replaceAll r.responses w.code bodyBytes }

/-! ## A concrete literal-pattern regex engine

Go's `regexp.ReplaceAll` on a pattern free of metacharacters replaces all
non-overlapping occurrences of the literal pattern, left to right; a lone
`*` fails to compile ("missing argument to repetition operator").  This
engine accepts exactly the alphanumeric (hence metacharacter-free)
patterns and substitutes literally, which agrees with Go on that
fragment; it instantiates the parametric theorems. -/

/-- Accept exactly the non-empty alphanumeric patterns (no regex
metacharacters); reject everything else, as Go rejects a lone `*`. -/
def litCompile (s : String) : Except String String :=
  if s ≠ "" ∧ s.data.all Char.isAlphanum then Except.ok s
  else Except.error "invalid pattern"

/-- Replace every non-overlapping occurrence of `pat`, leftmost first,
scanning left to right and resuming after each match; the fuel bounds the
scan length (one character is consumed per step, so `s.length` suffices,
provided `pat` is non-empty). -/
def replaceAllAux (pat repl : List Char) : Nat → List Char → List Char
  | 0, s => s
  | _ + 1, [] => []
  | fuel + 1, c :: rest =>
    if pat.isPrefixOf (c :: rest) then
      repl ++ replaceAllAux pat repl fuel ((c :: rest).drop pat.length)
    else
      c :: replaceAllAux pat repl fuel rest

/-- Literal replace-all: on metacharacter-free patterns Go's `ReplaceAll`
replaces every non-overlapping occurrence of the literal pattern, leftmost
first, continuing after the matched text. -/
def litReplaceAll (pattern replacement body : String) : String :=
  if pattern.data = [] then body
  else String.mk (replaceAllAux pattern.data replacement.data body.data.length body.data)

instance {ε α : Type} [DecidableEq ε] [DecidableEq α] : DecidableEq (Except ε α)
  | Except.ok a, Except.ok b => by
    cases decEq a b with
    | isTrue h => exact isTrue (by rw [h])
    | isFalse h => exact isFalse (by intro hh; cases hh; exact h rfl)
  | Except.ok _, Except.error _ => isFalse (by intro h; cases h)
  | Except.error _, Except.ok _ => isFalse (by intro h; cases h)
  | Except.error a, Except.error b => by
    cases decEq a b with
    | isTrue h => exact isTrue (by rw [h])
    | isFalse h => exact isFalse (by intro hh; cases hh; exact h rfl)

/-- The binding for `k` that survives a replacing copy of `m`: the last one
in `m`, when any. -/
def lastVals : HttpHeader → String → Option (List String)
  | [], _ => none
  | p :: m, k =>
    match lastVals m k with
    | some vs => some vs
    | none => if p.1 = k then some p.2 else none

/-- The number of non-informational status writes received by the real sink. -/
def nonInfoCount (l : List Int) : Nat :=
  (l.filter (fun c => !(100 ≤ c && c ≤ 199))).length

/-! ## Content-Length deletion invariants -/

/-- Whether the call sets the `Content-Length` header. -/
def setsContentLength : HandlerOp → Bool
  | HandlerOp.setHeader k _ => k = "Content-Length"
  | _ => false

/-- Whether the call commits the status on an uncommitted writer (a body
write, or a non-informational status write). -/
def commitsNow : HandlerOp → Bool
  | HandlerOp.write _ => true
  | HandlerOp.writeHeader c => !(100 ≤ c && c ≤ 199)
  | _ => false

/-- The downstream handler does not set `Content-Length` after the call
that commits the status (setting it afterwards would bypass any
intermediary, since the post-commit header map is the real sink's own). -/
def noLateContentLength : List HandlerOp → Bool
  | [] => true
  | op :: rest =>
    if commitsNow op then rest.all (fun o => !setsContentLength o)
    else noLateContentLength rest

/-! ## Concrete fixtures (mirroring the repository's tests) -/

/-- The parsed middleware holding rules `foo→bar` then `bar→foo` for
statuses 200-299, as built by `New` from the test configuration. -/
def fooBarRules : responsebodyrewrite String :=
  { name := "rewriteBody"
    responses := [ { rewrites := [ { regex := "foo", replacement := "bar" }
                                 , { regex := "bar", replacement := "foo" } ]
                     status := [(200, 299)] } ]
    lastModified := true }

/-- A downstream handler like the test's: sets headers, writes status 200,
writes the body. -/
def okHandler : List HandlerOp :=
  [ HandlerOp.setHeader "Last-Modified" "Thu, 02 Jun 2016 06:01:08 GMT"
  , HandlerOp.setHeader "Content-Length" "18"
  , HandlerOp.writeHeader 200
  , HandlerOp.write "foo is the new bar" ]

/-- A downstream handler that marks the response gzip-encoded. -/
def gzipHandler : List HandlerOp :=
  [ HandlerOp.setHeader "Content-Encoding" "gzip"
  , HandlerOp.setHeader "Content-Length" "18"
  , HandlerOp.writeHeader 200
  , HandlerOp.write "foo is the new bar" ]

/-- A downstream handler that sets `Content-Encoding: identity`. -/
def identityHandler : List HandlerOp :=
  [ HandlerOp.setHeader "Content-Encoding" "identity"
  , HandlerOp.writeHeader 200
  , HandlerOp.write "foo is the new bar" ]

/-- An already-committed writer state. -/
def committedWriter : responseWriter :=
  { buffer := "hello"
    headerMap := []
    headersSent := true
    code := 200
    sinkHeaders := [("X-Test", ["1"])]
    sinkStatusWrites := [200]
    sinkBody := "" }

/-- An uncommitted writer state with pending private headers. -/
def pendingWriter : responseWriter :=
  { buffer := ""
    headerMap := [("Content-Length", ["18"]), ("X-Test", ["1"])]
    headersSent := false
    code := 200
    sinkHeaders := []
    sinkStatusWrites := []
    sinkBody := "" }

/-- The source configuration whose parse is `fooBarRules`. -/
def fooBarConfig : Config :=
  { Responses := [ { Rewrites := [ { Regex := "foo", Replacement := "bar" }
                                 , { Regex := "bar", Replacement := "foo" } ]
                   , Status := "200-299" } ] }

/-- A handler that writes a body without ever writing a status. -/
def noStatusHandler : List HandlerOp :=
  [ HandlerOp.setHeader "X-Test" "1", HandlerOp.write "hi" ]

/-! ## Theorems -/

/-! ## Helper lemmas on headers -/

theorem HttpHeader.contains_nil (k : String) :
    HttpHeader.contains [] k = false := rfl

theorem HttpHeader.contains_cons (p : String × List String) (t : HttpHeader) (k : String) :
    HttpHeader.contains (p :: t) k = (decide (p.1 = k) || HttpHeader.contains t k) := rfl

theorem HttpHeader.del_nil (k : String) : HttpHeader.del [] k = [] := rfl

theorem HttpHeader.del_cons (p : String × List String) (t : HttpHeader) (k : String) :
    HttpHeader.del (p :: t) k
      = (if p.1 = k then HttpHeader.del t k else p :: HttpHeader.del t k) := by
  by_cases hp : p.1 = k <;> simp [HttpHeader.del, List.filter_cons, hp]

theorem HttpHeader.find_nil (k : String) : HttpHeader.find [] k = [] := rfl

theorem HttpHeader.find_cons (p : String × List String) (t : HttpHeader) (k : String) :
    HttpHeader.find (p :: t) k = (if p.1 = k then p.2 else HttpHeader.find t k) := by
  by_cases hp : p.1 = k <;> simp [HttpHeader.find, List.find?_cons, hp]

theorem HttpHeader.contains_append (a b : HttpHeader) (k : String) :
    HttpHeader.contains (a ++ b) k = (HttpHeader.contains a k || HttpHeader.contains b k) := by
  simp [HttpHeader.contains, List.any_append]

theorem HttpHeader.contains_del_self (h : HttpHeader) (k : String) :
    HttpHeader.contains (HttpHeader.del h k) k = false := by
  induction h with
  | nil => rfl
  | cons p t ih =>
    rw [HttpHeader.del_cons]
    by_cases hp : p.1 = k <;> simp [hp, HttpHeader.contains_cons, ih]

theorem HttpHeader.contains_del_ne (h : HttpHeader) {k' k : String} (hne : k' ≠ k) :
    HttpHeader.contains (HttpHeader.del h k') k = HttpHeader.contains h k := by
  induction h with
  | nil => rfl
  | cons p t ih =>
    rw [HttpHeader.del_cons]
    by_cases hp : p.1 = k'
    · have hpk : p.1 ≠ k := hp ▸ hne
      simp [hp, HttpHeader.contains_cons, ih, hpk, hne]
    · simp [hp, HttpHeader.contains_cons, ih]

theorem HttpHeader.contains_set_ne (h : HttpHeader) {k' k : String} (v : String)
    (hne : k' ≠ k) : HttpHeader.contains (HttpHeader.set h k' v) k = HttpHeader.contains h k := by
  rw [HttpHeader.set, HttpHeader.setVals, HttpHeader.contains_append,
    HttpHeader.contains_del_ne h hne, HttpHeader.contains_cons]
  simp [hne, HttpHeader.contains_nil]

theorem HttpHeader.find_del_self (h : HttpHeader) (k : String) :
    HttpHeader.find (HttpHeader.del h k) k = [] := by
  induction h with
  | nil => rfl
  | cons p t ih =>
    rw [HttpHeader.del_cons]
    by_cases hp : p.1 = k <;> simp [hp, HttpHeader.find_cons, ih]

theorem HttpHeader.find_del_ne (h : HttpHeader) {k' k : String} (hne : k' ≠ k) :
    HttpHeader.find (HttpHeader.del h k') k = HttpHeader.find h k := by
  induction h with
  | nil => rfl
  | cons p t ih =>
    rw [HttpHeader.del_cons]
    by_cases hp : p.1 = k'
    · have hpk : p.1 ≠ k := hp ▸ hne
      simp [hp, HttpHeader.find_cons, ih, hpk, hne]
    · simp [hp, HttpHeader.find_cons, ih]

theorem HttpHeader.find_eq_nil_of_contains_eq_false {h : HttpHeader} {k : String}
    (hc : HttpHeader.contains h k = false) : HttpHeader.find h k = [] := by
  induction h with
  | nil => rfl
  | cons p t ih =>
    rw [HttpHeader.contains_cons] at hc
    rw [HttpHeader.find_cons]
    by_cases hp : p.1 = k <;> simp [hp] at hc ⊢
    exact ih hc

theorem HttpHeader.find_append (a b : HttpHeader) (k : String) :
    HttpHeader.find (a ++ b) k
      = (if HttpHeader.contains a k then HttpHeader.find a k else HttpHeader.find b k) := by
  induction a with
  | nil => simp [HttpHeader.find_nil, HttpHeader.contains_nil]
  | cons p t ih =>
    rw [List.cons_append, HttpHeader.find_cons, HttpHeader.find_cons,
      HttpHeader.contains_cons]
    by_cases hp : p.1 = k <;> simp [hp, ih]

theorem HttpHeader.find_setVals (h : HttpHeader) (k' k : String) (vs : List String) :
    HttpHeader.find (HttpHeader.setVals h k' vs) k = (if k' = k then vs else HttpHeader.find h k) := by
  by_cases hk : k' = k
  · subst hk
    simp [HttpHeader.setVals, HttpHeader.find_append, HttpHeader.contains_del_self,
      HttpHeader.find_cons]
  · simp [HttpHeader.setVals, HttpHeader.find_append, hk,
      HttpHeader.contains_del_ne h hk, HttpHeader.find_del_ne h hk,
      HttpHeader.find_cons]
    intro hcont
    exact (HttpHeader.find_eq_nil_of_contains_eq_false hcont).symm

/-! ## Helper lemmas on header copying -/

theorem HttpHeader.copyFrom_nil (dst : HttpHeader) : HttpHeader.copyFrom dst [] = dst := rfl

theorem HttpHeader.copyFrom_cons (dst : HttpHeader) (p : String × List String)
    (m : HttpHeader) :
    HttpHeader.copyFrom dst (p :: m) = HttpHeader.copyFrom (HttpHeader.setVals dst p.1 p.2) m := rfl

theorem HttpHeader.find_copyFrom (m dst : HttpHeader) (k : String) :
    HttpHeader.find (HttpHeader.copyFrom dst m) k
      = (lastVals m k).getD (HttpHeader.find dst k) := by
  induction m generalizing dst with
  | nil => rfl
  | cons p t ih =>
    rw [HttpHeader.copyFrom_cons, ih]
    cases hl : lastVals t k with
    | some vs => simp [lastVals, hl]
    | none =>
      by_cases hp : p.1 = k <;> simp [lastVals, hl, hp, HttpHeader.find_setVals]

/-! ## Helper lemmas on the wrapping writer -/

theorem stepOp_sinkBody (r : responseWriter) (op : HandlerOp) :
    (stepOp r op).sinkBody = r.sinkBody := by
  cases op <;>
    simp only [stepOp, responseWriter.setHeader, responseWriter.WriteHeader,
      responseWriter.Write] <;>
    split_ifs <;> rfl

theorem runHandler_sinkBody (ops : List HandlerOp) (r : responseWriter) :
    (runHandler ops r).sinkBody = r.sinkBody := by
  induction ops generalizing r with
  | nil => rfl
  | cons op rest ih =>
    show (runHandler rest (stepOp r op)).sinkBody = r.sinkBody
    rw [ih, stepOp_sinkBody]

theorem ServeHTTP_sinkHeaders {γ : Type} (ra : γ → String → String → String)
    (mw : responsebodyrewrite γ) (handler : List HandlerOp) :
    (ServeHTTP ra mw handler).sinkHeaders = (runHandler handler initialWriter).sinkHeaders := by
  simp only [ServeHTTP]
  split_ifs <;> rfl

theorem ServeHTTP_headersSent {γ : Type} (ra : γ → String → String → String)
    (mw : responsebodyrewrite γ) (handler : List HandlerOp) :
    (ServeHTTP ra mw handler).headersSent = (runHandler handler initialWriter).headersSent := by
  simp only [ServeHTTP]
  split_ifs <;> rfl

theorem matchAndRewrite_eq_firstMatch {γ : Type} (ra : γ → String → String → String)
    (rs : List (parsedResponse γ)) (code : Int) (body : String) :
    matchAndRewrite ra rs code body
      = (match rs.find? (fun resp => HTTPCodeRanges.Contains resp.status code) with
         | some resp => applyRewrites ra resp.rewrites body
         | none => body) := by
  induction rs with
  | nil => rfl
  | cons resp rest ih =>
    by_cases hc : HTTPCodeRanges.Contains resp.status code = true <;>
      simp [matchAndRewrite, List.find?_cons, hc, ih]

theorem nonInfoCount_append (l : List Int) (c : Int) :
    nonInfoCount (l ++ [c]) = nonInfoCount l + (if 100 ≤ c ∧ c ≤ 199 then 0 else 1) := by
  by_cases hc : 100 ≤ c ∧ c ≤ 199
  · simp [nonInfoCount, List.filter_append, List.filter_cons, hc]
  · have hor : c < 100 ∨ 199 < c := by omega
    simp [nonInfoCount, List.filter_append, List.filter_cons, hc, hor]

theorem stepOp_nonInfo (r : responseWriter) (op : HandlerOp)
    (h : nonInfoCount r.sinkStatusWrites = (if r.headersSent then 1 else 0)) :
    nonInfoCount (stepOp r op).sinkStatusWrites
      = (if (stepOp r op).headersSent then 1 else 0) := by
  cases op with
  | setHeader k v =>
    simp only [stepOp, responseWriter.setHeader]
    split_ifs with h1 <;> simp_all
  | writeHeader c =>
    simp only [stepOp, responseWriter.WriteHeader]
    by_cases h1 : r.headersSent = true
    · simp [h1, h]
    · have hb : r.headersSent = false := by simpa using h1
      by_cases h2 : 100 ≤ c ∧ c ≤ 199
      · simp [hb, h2, nonInfoCount_append]
        simpa [hb] using h
      · simp [hb, h2, nonInfoCount_append]
        simp [hb] at h
        omega
  | write p =>
    simp only [stepOp, responseWriter.Write]
    by_cases h1 : r.headersSent = true
    · simp [h1, h]
    · have hb : r.headersSent = false := by simpa using h1
      have h2 : ¬(100 ≤ (200 : Int) ∧ (200 : Int) ≤ 199) := by omega
      simp [hb, responseWriter.WriteHeader, h2, nonInfoCount_append]
      simp [hb] at h
      omega

theorem runHandler_nonInfo (ops : List HandlerOp) (r : responseWriter)
    (h : nonInfoCount r.sinkStatusWrites = (if r.headersSent then 1 else 0)) :
    nonInfoCount (runHandler ops r).sinkStatusWrites
      = (if (runHandler ops r).headersSent then 1 else 0) := by
  induction ops generalizing r with
  | nil => exact h
  | cons op rest ih =>
    show nonInfoCount (runHandler rest (stepOp r op)).sinkStatusWrites = _
    exact ih (stepOp r op) (stepOp_nonInfo r op h)

theorem runHandler_committed_keeps_noCL (ops : List HandlerOp) (r : responseWriter)
    (hsent : r.headersSent = true)
    (hcl : HttpHeader.contains r.sinkHeaders "Content-Length" = false)
    (hops : ops.all (fun o => !setsContentLength o) = true) :
    (runHandler ops r).headersSent = true ∧
      HttpHeader.contains (runHandler ops r).sinkHeaders "Content-Length" = false := by
  induction ops generalizing r with
  | nil => exact ⟨hsent, hcl⟩
  | cons op rest ih =>
    simp only [List.all_cons, Bool.and_eq_true] at hops
    show (runHandler rest (stepOp r op)).headersSent = true ∧
      HttpHeader.contains (runHandler rest (stepOp r op)).sinkHeaders "Content-Length" = false
    cases op with
    | setHeader k v =>
      have hk : k ≠ "Content-Length" := by
        simpa [setsContentLength] using hops.1
      refine ih _ ?_ ?_ hops.2
      · simp [stepOp, responseWriter.setHeader, hsent]
      · simp [stepOp, responseWriter.setHeader, hsent,
          HttpHeader.contains_set_ne r.sinkHeaders v hk, hcl]
    | writeHeader c =>
      have hstep : stepOp r (HandlerOp.writeHeader c) = r := by
        simp [stepOp, responseWriter.WriteHeader, hsent]
      rw [hstep]
      exact ih r hsent hcl hops.2
    | write p =>
      refine ih _ ?_ ?_ hops.2
      · simp [stepOp, responseWriter.Write, hsent]
      · simp [stepOp, responseWriter.Write, hsent, hcl]

theorem runHandler_commit_noCL (ops : List HandlerOp) (r : responseWriter)
    (hns : r.headersSent = false)
    (hlate : noLateContentLength ops = true)
    (hsent : (runHandler ops r).headersSent = true) :
    HttpHeader.contains (runHandler ops r).sinkHeaders "Content-Length" = false := by
  induction ops generalizing r with
  | nil =>
    change r.headersSent = true at hsent
    rw [hns] at hsent
    cases hsent
  | cons op rest ih =>
    change (runHandler rest (stepOp r op)).headersSent = true at hsent
    show HttpHeader.contains (runHandler rest (stepOp r op)).sinkHeaders "Content-Length" = false
    cases op with
    | setHeader k v =>
      have hlate' : noLateContentLength rest = true := by
        simpa [noLateContentLength, commitsNow] using hlate
      have hns' : (stepOp r (HandlerOp.setHeader k v)).headersSent = false := by
        simp [stepOp, responseWriter.setHeader, hns]
      exact ih _ hns' hlate' hsent
    | writeHeader c =>
      by_cases hc : 100 ≤ c ∧ c ≤ 199
      · have hlate' : noLateContentLength rest = true := by
          simpa [noLateContentLength, commitsNow, hc] using hlate
        have hns' : (stepOp r (HandlerOp.writeHeader c)).headersSent = false := by
          simp [stepOp, responseWriter.WriteHeader, hns, hc]
        exact ih _ hns' hlate' hsent
      · have hor : c < 100 ∨ 199 < c := by omega
        have hall : rest.all (fun o => !setsContentLength o) = true := by
          simpa [noLateContentLength, commitsNow, hc, hor] using hlate
        have hstep : (stepOp r (HandlerOp.writeHeader c)).headersSent = true ∧
            HttpHeader.contains (stepOp r (HandlerOp.writeHeader c)).sinkHeaders
              "Content-Length" = false := by
          constructor
          · simp [stepOp, responseWriter.WriteHeader, hns, hc]
          · simp [stepOp, responseWriter.WriteHeader, hns, hc,
              HttpHeader.contains_del_self]
        exact (runHandler_committed_keeps_noCL rest _ hstep.1 hstep.2 hall).2
    | write p =>
      have hall : rest.all (fun o => !setsContentLength o) = true := by
        simpa [noLateContentLength, commitsNow] using hlate
      have h2 : ¬(100 ≤ (200 : Int) ∧ (200 : Int) ≤ 199) := by omega
      have hstep : (stepOp r (HandlerOp.write p)).headersSent = true ∧
          HttpHeader.contains (stepOp r (HandlerOp.write p)).sinkHeaders
            "Content-Length" = false := by
        constructor
        · simp [stepOp, responseWriter.Write, responseWriter.WriteHeader, hns, h2]
        · simp [stepOp, responseWriter.Write, responseWriter.WriteHeader, hns, h2,
            HttpHeader.contains_del_self]
      exact (runHandler_committed_keeps_noCL rest _ hstep.1 hstep.2 hall).2

/-! ## Claim theorems -/

/-- C1: For every request whose response has an empty, absent, or identity
Content-Encoding, the body written to the real sink equals the buffered
body transformed by the rewrite sequence of exactly the first configured
ResponseRule whose range contains the captured status code; entries after
the first match are never applied (only the `find?`-first rule governs),
and if no configured range contains the code the body written is
byte-identical to the buffered body. -/
theorem serveHTTP_first_matching_rule_governs {γ : Type}
    (ra : γ → String → String → String) (mw : responsebodyrewrite γ)
    (handler : List HandlerOp)
    (hce : HttpHeader.get (runHandler handler initialWriter).Header "Content-Encoding" = ""
         ∨ HttpHeader.get (runHandler handler initialWriter).Header "Content-Encoding"
             = "identity") :
    (ServeHTTP ra mw handler).sinkBody
      = (match mw.responses.find?
            (fun resp => HTTPCodeRanges.Contains resp.status
              (runHandler handler initialWriter).code) with
         | some resp => applyRewrites ra resp.rewrites (runHandler handler initialWriter).buffer
         | none => (runHandler handler initialWriter).buffer) := by
  have hnb : ¬(HttpHeader.get (runHandler handler initialWriter).Header "Content-Encoding" ≠ ""
      ∧ HttpHeader.get (runHandler handler initialWriter).Header "Content-Encoding"
          ≠ "identity") := by
    rcases hce with h | h <;> simp [h]
  simp only [ServeHTTP]
  rw [if_neg hnb]
  rw [matchAndRewrite_eq_firstMatch]
  have hsb : (runHandler handler initialWriter).sinkBody = "" :=
    runHandler_sinkBody handler initialWriter
  rw [hsb]
  cases mw.responses.find?
      (fun resp => HTTPCodeRanges.Contains resp.status
        (runHandler handler initialWriter).code) <;> rfl

/-- Witness for C1 at the test fixture: status 200 matches the single
configured rule, whose two rewrites map `"foo is the new bar"` to
`"foo is the new foo"`. -/
theorem serveHTTP_first_matching_rule_governs_witness :
    (HttpHeader.get (runHandler okHandler initialWriter).Header "Content-Encoding" = ""
       ∨ HttpHeader.get (runHandler okHandler initialWriter).Header "Content-Encoding"
           = "identity")
    ∧ (ServeHTTP litReplaceAll fooBarRules okHandler).sinkBody
        = (match fooBarRules.responses.find?
              (fun resp => HTTPCodeRanges.Contains resp.status
                (runHandler okHandler initialWriter).code) with
           | some resp =>
             applyRewrites litReplaceAll resp.rewrites (runHandler okHandler initialWriter).buffer
           | none => (runHandler okHandler initialWriter).buffer) :=
  ⟨Or.inl (by decide),
    serveHTTP_first_matching_rule_governs litReplaceAll fooBarRules okHandler
      (Or.inl (by decide))⟩

/-- C2: a present, non-empty, non-identity Content-Encoding forwards the
buffered body byte-for-byte with no rewrite, regardless of rules; an
empty/absent or identity Content-Encoding lets the rewrite stage run
normally. -/
theorem serveHTTP_encoding_passthrough :
    (∀ (γ : Type) (ra : γ → String → String → String) (mw : responsebodyrewrite γ)
       (handler : List HandlerOp),
      HttpHeader.get (runHandler handler initialWriter).Header "Content-Encoding" ≠ "" →
      HttpHeader.get (runHandler handler initialWriter).Header "Content-Encoding" ≠ "identity" →
      (ServeHTTP ra mw handler).sinkBody = (runHandler handler initialWriter).buffer)
    ∧ (∀ (γ : Type) (ra : γ → String → String → String) (mw : responsebodyrewrite γ)
         (handler : List HandlerOp),
        (HttpHeader.get (runHandler handler initialWriter).Header "Content-Encoding" = ""
          ∨ HttpHeader.get (runHandler handler initialWriter).Header "Content-Encoding"
              = "identity") →
        (ServeHTTP ra mw handler).sinkBody
          = matchAndRewrite ra mw.responses (runHandler handler initialWriter).code
              (runHandler handler initialWriter).buffer) := by
  constructor
  · intro γ ra mw handler h1 h2
    simp only [ServeHTTP]
    rw [if_pos ⟨h1, h2⟩]
    rw [runHandler_sinkBody handler initialWriter]
    rfl
  · intro γ ra mw handler hce
    have hnb : ¬(HttpHeader.get (runHandler handler initialWriter).Header "Content-Encoding" ≠ ""
        ∧ HttpHeader.get (runHandler handler initialWriter).Header "Content-Encoding"
            ≠ "identity") := by
      rcases hce with h | h <;> simp [h]
    simp only [ServeHTTP]
    rw [if_neg hnb]
    rw [runHandler_sinkBody handler initialWriter]
    rfl

/-- Witness for C2: with `Content-Encoding: gzip` the body passes through
unmodified although status 200 matches the rule; with `identity` the
rewrite stage runs. -/
theorem serveHTTP_encoding_passthrough_witness :
    (HttpHeader.get (runHandler gzipHandler initialWriter).Header "Content-Encoding" ≠ ""
      ∧ HttpHeader.get (runHandler gzipHandler initialWriter).Header "Content-Encoding"
          ≠ "identity"
      ∧ (ServeHTTP litReplaceAll fooBarRules gzipHandler).sinkBody
          = (runHandler gzipHandler initialWriter).buffer)
    ∧ (HttpHeader.get (runHandler identityHandler initialWriter).Header "Content-Encoding"
          = "identity"
        ∧ (ServeHTTP litReplaceAll fooBarRules identityHandler).sinkBody
            = matchAndRewrite litReplaceAll fooBarRules.responses
                (runHandler identityHandler initialWriter).code
                (runHandler identityHandler initialWriter).buffer) :=
  ⟨⟨by decide, by decide,
      serveHTTP_encoding_passthrough.1 String litReplaceAll fooBarRules gzipHandler
        (by decide) (by decide)⟩,
    ⟨by decide,
      serveHTTP_encoding_passthrough.2 String litReplaceAll fooBarRules identityHandler
        (Or.inr (by decide))⟩⟩

/-- C3: within the matched ResponseRule the rewrites chain sequentially —
appending a rule makes it act on the output of all earlier rules — and on
the test fixture the rules `foo→bar` then `bar→foo` turn
`"foo is the new bar"` into `"foo is the new foo"`. -/
theorem rewrites_chain_sequentially :
    (∀ (γ : Type) (ra : γ → String → String → String)
       (rws : List (parsedRewrite γ)) (last : parsedRewrite γ) (body : String),
      applyRewrites ra (rws ++ [last]) body
        = ra last.regex last.replacement (applyRewrites ra rws body))
    ∧ (ServeHTTP litReplaceAll fooBarRules okHandler).sinkBody = "foo is the new foo" := by
  constructor
  · intro γ ra rws last body
    simp [applyRewrites, List.foldl_append]
  · decide

/-- C5: ranges built from "200-299,400-499" contain exactly the codes in
[200,299] ∪ [400,499], with the stated boundary behaviour, and in general
`Contains` holds iff some stored interval's inclusive bounds contain the
code. -/
theorem contains_iff_some_interval :
    (NewHTTPCodeRanges ["200-299,400-499"] = Except.ok [(200, 299), (400, 499)])
    ∧ (∀ c : Int,
        HTTPCodeRanges.Contains [(200, 299), (400, 499)] c = true
          ↔ ((200 ≤ c ∧ c ≤ 299) ∨ (400 ≤ c ∧ c ≤ 499)))
    ∧ (HTTPCodeRanges.Contains [(200, 299), (400, 499)] 200 = true
        ∧ HTTPCodeRanges.Contains [(200, 299), (400, 499)] 299 = true
        ∧ HTTPCodeRanges.Contains [(200, 299), (400, 499)] 400 = true
        ∧ HTTPCodeRanges.Contains [(200, 299), (400, 499)] 499 = true
        ∧ HTTPCodeRanges.Contains [(200, 299), (400, 499)] 199 = false
        ∧ HTTPCodeRanges.Contains [(200, 299), (400, 499)] 300 = false
        ∧ HTTPCodeRanges.Contains [(200, 299), (400, 499)] 500 = false)
    ∧ (∀ (R : HTTPCodeRanges) (code : Int),
        HTTPCodeRanges.Contains R code = true ↔ ∃ p ∈ R, p.1 ≤ code ∧ code ≤ p.2) := by
  refine ⟨by decide, ?_, by decide, ?_⟩
  · intro c
    simp [HTTPCodeRanges.Contains, List.any_cons, List.any_nil]
  · intro R code
    simp [HTTPCodeRanges.Contains, List.any_eq_true]

/-! ## Construction lemmas -/

theorem except_map_isOk {ε α β : Type} (f : α → β) (e : Except ε α) :
    (e.map f).isOk = e.isOk := by
  cases e <;> rfl

theorem except_isOk_ok {ε α : Type} (a : α) : (Except.ok a : Except ε α).isOk = true := rfl

theorem except_isOk_error {ε α : Type} (e : ε) :
    (Except.error e : Except ε α).isOk = false := rfl

theorem parseRewrites_isOk {γ : Type} (compile : String → Except String γ)
    (rws : List Rewrite) :
    (parseRewrites compile rws).isOk
      = rws.all (fun rc => (compile rc.Regex).isOk) := by
  induction rws with
  | nil => rfl
  | cons rc rest ih =>
    simp only [parseRewrites, List.all_cons]
    cases hc : compile rc.Regex with
    | error e => simp [except_isOk_error]
    | ok g =>
      rw [except_map_isOk, ih, except_isOk_ok, Bool.true_and]

theorem parseResponses_isOk {γ : Type} (compile : String → Except String γ)
    (resps : List Response) :
    (parseResponses compile resps).isOk
      = resps.all (fun resp =>
          (NewHTTPCodeRanges [resp.Status]).isOk
            && (parseRewrites compile resp.Rewrites).isOk) := by
  induction resps with
  | nil => rfl
  | cons resp rest ih =>
    simp only [parseResponses, List.all_cons, bind, Except.bind]
    cases h1 : NewHTTPCodeRanges [resp.Status] with
    | error e => simp [except_isOk_error]
    | ok ranges =>
      cases h2 : parseRewrites compile resp.Rewrites with
      | error e => simp [except_isOk_error, except_isOk_ok]
      | ok rws =>
        cases h3 : parseResponses compile rest with
        | error e =>
          rw [h3] at ih
          simp only [except_isOk_error] at ih
          simp [except_isOk_error, except_isOk_ok, ← ih]
        | ok tail =>
          rw [h3] at ih
          simp only [except_isOk_ok] at ih
          simp [except_isOk_error, except_isOk_ok, pure, Except.pure, ← ih]

theorem parseRewrites_ok_compiled {γ : Type} (compile : String → Except String γ)
    (rws : List Rewrite) :
    ∀ prs, parseRewrites compile rws = Except.ok prs →
      ∀ prw ∈ prs, ∃ src, compile src = Except.ok prw.regex := by
  induction rws with
  | nil =>
    intro prs h prw hmem
    simp only [parseRewrites] at h
    cases h
    cases hmem
  | cons rc rest ih =>
    intro prs h prw hmem
    simp only [parseRewrites] at h
    revert h
    cases hc : compile rc.Regex with
    | error e => intro h; cases h
    | ok g =>
      cases hr : parseRewrites compile rest with
      | error e => intro h; cases h
      | ok rs =>
        intro h
        simp only [Except.map] at h
        cases h
        rcases List.mem_cons.mp hmem with hhd | htl
        · subst hhd
          exact ⟨rc.Regex, hc⟩
        · exact ih rs hr prw htl

theorem parseResponses_ok_compiled {γ : Type} (compile : String → Except String γ)
    (resps : List Response) :
    ∀ prs, parseResponses compile resps = Except.ok prs →
      ∀ presp ∈ prs, ∀ prw ∈ presp.rewrites,
        ∃ src, compile src = Except.ok prw.regex := by
  induction resps with
  | nil =>
    intro prs h presp hmem
    simp only [parseResponses] at h
    cases h
    cases hmem
  | cons resp rest ih =>
    intro prs h presp hmem prw hprw
    simp only [parseResponses, bind, Except.bind] at h
    revert h
    cases h1 : NewHTTPCodeRanges [resp.Status] with
    | error e => intro h; cases h
    | ok ranges =>
      cases h2 : parseRewrites compile resp.Rewrites with
      | error e => intro h; cases h
      | ok rws =>
        cases h3 : parseResponses compile rest with
        | error e => intro h; cases h
        | ok tail =>
          intro h
          simp only [pure, Except.pure] at h
          cases h
          rcases List.mem_cons.mp hmem with hhd | htl
          · subst hhd
            exact parseRewrites_ok_compiled compile resp.Rewrites rws h2 prw hprw
          · exact ih tail h3 presp htl prw hprw

/-- C6: construction is all-or-nothing — `New` succeeds exactly when every
configured status specification parses and every rewrite pattern compiles
(any failure yields an error and no middleware), and a successful build is
fully initialized: every stored pattern is the output of a successful
compilation.  The listed malformed inputs are rejected. -/
theorem new_is_all_or_nothing :
    (∀ (γ : Type) (compile : String → Except String γ) (config : Config) (name : String),
      (New compile config name).isOk = true
        ↔ ∀ resp ∈ config.Responses,
            (NewHTTPCodeRanges [resp.Status]).isOk = true
            ∧ ∀ rw ∈ resp.Rewrites, (compile rw.Regex).isOk = true)
    ∧ (∀ (γ : Type) (compile : String → Except String γ) (config : Config) (name : String)
         (mw : responsebodyrewrite γ),
        New compile config name = Except.ok mw →
        ∀ presp ∈ mw.responses, ∀ prw ∈ presp.rewrites,
          ∃ src, compile src = Except.ok prw.regex)
    ∧ ((NewHTTPCodeRanges ["200-abc"]).isOk = false
        ∧ (NewHTTPCodeRanges ["abc-200"]).isOk = false
        ∧ (NewHTTPCodeRanges ["200,299foo"]).isOk = false
        ∧ (New litCompile
            { Responses := [ { Rewrites := [ { Regex := "*", Replacement := "bar" } ]
                             , Status := "200-299" } ] } "rewriteBody").isOk = false) := by
  refine ⟨?_, ?_, by decide, by decide, by decide, by decide⟩
  · intro γ compile config name
    rw [New, except_map_isOk, parseResponses_isOk]
    simp [List.all_eq_true, parseRewrites_isOk]
  · intro γ compile config name mw hok presp hmem prw hprw
    rw [New] at hok
    revert hok
    cases hp : parseResponses compile config.Responses with
    | error e => intro hok; cases hok
    | ok prs =>
      intro hok
      simp only [Except.map] at hok
      cases hok
      exact parseResponses_ok_compiled compile config.Responses prs hp presp hmem prw hprw

/-- Witness for C6: the test configuration builds successfully and every
stored pattern was compiled successfully. -/
theorem new_is_all_or_nothing_witness :
    (New litCompile fooBarConfig "rewriteBody" = Except.ok fooBarRules)
    ∧ (∀ presp ∈ fooBarRules.responses, ∀ prw ∈ presp.rewrites,
        ∃ src, litCompile src = Except.ok prw.regex) :=
  ⟨by decide,
    new_is_all_or_nothing.2.1 String litCompile fooBarConfig "rewriteBody" fooBarRules
      (by decide)⟩

/-- C7: the wrapper's status write is one-shot — once committed, any later
`WriteHeader` call (with any code) leaves the whole state unchanged — and
the real sink receives at most one non-informational status write per
request. -/
theorem writeStatus_idempotent_after_commit :
    (∀ (s : responseWriter) (c : Int), s.headersSent = true → s.WriteHeader c = s)
    ∧ (∀ handler : List HandlerOp,
        nonInfoCount (runHandler handler initialWriter).sinkStatusWrites ≤ 1) := by
  constructor
  · intro s c h
    simp [responseWriter.WriteHeader, h]
  · intro handler
    have hinv := runHandler_nonInfo handler initialWriter (by decide)
    rw [hinv]
    split_ifs <;> omega

/-- Witness for C7 on a committed writer state. -/
theorem writeStatus_idempotent_after_commit_witness :
    committedWriter.headersSent = true ∧ committedWriter.WriteHeader 404 = committedWriter :=
  ⟨rfl, writeStatus_idempotent_after_commit.1 committedWriter 404 rfl⟩

theorem runHandler_code_200 (ops : List HandlerOp) (s : responseWriter)
    (hno : ∀ op ∈ ops, ∀ c : Int, op ≠ HandlerOp.writeHeader c)
    (hcode : s.code = 200) :
    (runHandler ops s).code = 200 := by
  induction ops generalizing s with
  | nil => exact hcode
  | cons op rest ih =>
    show (runHandler rest (stepOp s op)).code = 200
    refine ih (stepOp s op) (fun o ho c => hno o (List.mem_cons_of_mem op ho) c) ?_
    cases op with
    | setHeader k v => simp [stepOp, responseWriter.setHeader]; split_ifs <;> simp [hcode]
    | writeHeader c => exact absurd rfl (hno (HandlerOp.writeHeader c) (List.mem_cons_self _ _) c)
    | write p =>
      simp only [stepOp, responseWriter.Write]
      by_cases hs : s.headersSent = true
      · simp [hs, hcode]
      · have hb : s.headersSent = false := by simpa using hs
        have h2 : ¬(100 ≤ (200 : Int) ∧ (200 : Int) ≤ 199) := by omega
        simp [hb, responseWriter.WriteHeader, h2]

/-- C8: a body write before any status write behaves exactly as though
status 200 had been written first (headers flushed, 200 committed, bytes
buffered); and a handler that never writes a status leaves the captured
code at its default 200, which the decide stage then uses. -/
theorem implicit_200_on_first_write :
    (∀ (s : responseWriter) (p : String), s.headersSent = false →
      s.Write p
        = { s.WriteHeader 200 with buffer := (s.WriteHeader 200).buffer ++ p })
    ∧ (∀ handler : List HandlerOp,
        (∀ op ∈ handler, ∀ c : Int, op ≠ HandlerOp.writeHeader c) →
        (runHandler handler initialWriter).code = 200) := by
  constructor
  · intro s p h
    simp [responseWriter.Write, h]
  · intro handler hno
    exact runHandler_code_200 handler initialWriter hno rfl

/-- Witness for C8 on an uncommitted writer and a status-less handler. -/
theorem implicit_200_on_first_write_witness :
    (pendingWriter.headersSent = false
      ∧ pendingWriter.Write "abc"
          = { pendingWriter.WriteHeader 200 with
                buffer := (pendingWriter.WriteHeader 200).buffer ++ "abc" })
    ∧ ((∀ op ∈ noStatusHandler, ∀ c : Int, op ≠ HandlerOp.writeHeader c)
      ∧ (runHandler noStatusHandler initialWriter).code = 200) := by
  have hno : ∀ op ∈ noStatusHandler, ∀ c : Int, op ≠ HandlerOp.writeHeader c := by
    intro op hop c
    rcases List.mem_cons.mp hop with rfl | hop2
    · simp
    · rcases List.mem_cons.mp hop2 with rfl | hop3
      · simp
      · cases hop3
  exact ⟨⟨rfl, implicit_200_on_first_write.1 pendingWriter "abc" rfl⟩,
    ⟨hno, implicit_200_on_first_write.2 noStatusHandler hno⟩⟩

/-- C9: an informational (1xx) status write on an uncommitted writer
forwards the status immediately with a replacing copy of the private
headers, leaving the buffer, captured code and committed flag untouched
(so a final status write can still commit normally); and a repeated
replacing copy does not duplicate any header value. -/
theorem informational_write_passthrough :
    (∀ (s : responseWriter) (c : Int), s.headersSent = false → 100 ≤ c → c ≤ 199 →
      s.WriteHeader c
        = { s with sinkHeaders := HttpHeader.copyFrom s.sinkHeaders s.headerMap
                 , sinkStatusWrites := s.sinkStatusWrites ++ [c] })
    ∧ (∀ (dst m : HttpHeader) (k : String),
        HttpHeader.find (HttpHeader.copyFrom (HttpHeader.copyFrom dst m) m) k
          = HttpHeader.find (HttpHeader.copyFrom dst m) k) := by
  constructor
  · intro s c h h1 h2
    simp [responseWriter.WriteHeader, responseWriter.Header, h, h1, h2]
  · intro dst m k
    rw [HttpHeader.find_copyFrom, HttpHeader.find_copyFrom]
    cases lastVals m k <;> simp

/-- Witness for C9: a 103 informational write on the pending writer. -/
theorem informational_write_passthrough_witness :
    pendingWriter.headersSent = false ∧ (100 : Int) ≤ 103 ∧ (103 : Int) ≤ 199
    ∧ pendingWriter.WriteHeader 103
        = { pendingWriter with
              sinkHeaders := HttpHeader.copyFrom pendingWriter.sinkHeaders pendingWriter.headerMap
            , sinkStatusWrites := pendingWriter.sinkStatusWrites ++ [103] } :=
  ⟨rfl, by omega, by omega,
    informational_write_passthrough.1 pendingWriter 103 rfl (by omega) (by omega)⟩

/-- C10: every non-informational status commit deletes `Content-Length`
from the real sink's headers unconditionally — no rule match or encoding
check is consulted — and the flush stage of `ServeHTTP` never touches the
sink's headers afterwards. -/
theorem commit_always_deletes_content_length :
    (∀ (s : responseWriter) (c : Int), s.headersSent = false → ¬(100 ≤ c ∧ c ≤ 199) →
      HttpHeader.contains (s.WriteHeader c).sinkHeaders "Content-Length" = false)
    ∧ (∀ (γ : Type) (ra : γ → String → String → String) (mw : responsebodyrewrite γ)
         (handler : List HandlerOp),
        (ServeHTTP ra mw handler).sinkHeaders = (runHandler handler initialWriter).sinkHeaders) := by
  constructor
  · intro s c h hinfo
    simp [responseWriter.WriteHeader, h, hinfo, HttpHeader.contains_del_self]
  · intro γ ra mw handler
    exact ServeHTTP_sinkHeaders ra mw handler

/-- Witness for C10: committing status 404 on the pending writer (whose
private headers carry a Content-Length). -/
theorem commit_always_deletes_content_length_witness :
    pendingWriter.headersSent = false ∧ ¬(100 ≤ (404 : Int) ∧ (404 : Int) ≤ 199)
    ∧ HttpHeader.contains (pendingWriter.WriteHeader 404).sinkHeaders "Content-Length" = false :=
  ⟨rfl, by omega,
    commit_always_deletes_content_length.1 pendingWriter 404 rfl (by omega)⟩

/-- C4: if the downstream handler commits a non-informational status that
some configured ResponseRule's range contains (and does not itself re-add
`Content-Length` after the commit), the real sink's headers at the end of
the request do not contain `Content-Length`: it was deleted at
status-commit time, whatever the rewrite later does to the body. -/
theorem matched_status_commit_removes_content_length {γ : Type}
    (ra : γ → String → String → String) (mw : responsebodyrewrite γ)
    (handler : List HandlerOp)
    (hlate : noLateContentLength handler = true)
    (hcommitted : (runHandler handler initialWriter).headersSent = true)
    (_hnoninfo : ¬(100 ≤ (runHandler handler initialWriter).code
        ∧ (runHandler handler initialWriter).code ≤ 199))
    (_hmatch : mw.responses.any
        (fun resp => HTTPCodeRanges.Contains resp.status
          (runHandler handler initialWriter).code) = true) :
    HttpHeader.contains (ServeHTTP ra mw handler).sinkHeaders "Content-Length" = false := by
  rw [ServeHTTP_sinkHeaders]
  exact runHandler_commit_noCL handler initialWriter rfl hlate hcommitted

/-- Witness for C4 at the test fixture: the handler sets `Content-Length`
before committing 200, which the single rule's range contains. -/
theorem matched_status_commit_removes_content_length_witness :
    noLateContentLength okHandler = true
    ∧ (runHandler okHandler initialWriter).headersSent = true
    ∧ ¬(100 ≤ (runHandler okHandler initialWriter).code
        ∧ (runHandler okHandler initialWriter).code ≤ 199)
    ∧ fooBarRules.responses.any
        (fun resp => HTTPCodeRanges.Contains resp.status
          (runHandler okHandler initialWriter).code) = true
    ∧ HttpHeader.contains (ServeHTTP litReplaceAll fooBarRules okHandler).sinkHeaders
        "Content-Length" = false :=
  ⟨by decide, by decide, by decide, by decide,
    matched_status_commit_removes_content_length litReplaceAll fooBarRules okHandler
      (by decide) (by decide) (by decide) (by decide)⟩

end ResponseBodyRewrite
